import Mathlib

/-!
Verification of the routing first-solution decision builders declared in
`ortools/constraint_solver/routing.h`.

The header contains the full inline code of the delta-staging primitives of
`IntVarFilteredDecisionBuilder` (`SetValue`, `Value`, `Contains`) and of the
saving encode/decode accessors of `SavingsFilteredDecisionBuilder`
(`BuildSaving`, `GetVehicleTypeFromSaving`, `GetBeforeNodeFromSaving`,
`GetAfterNodeFromSaving`, `GetSavingValue`).  Those are embedded directly from
the source.  The bodies of `Commit`, `ComputeSavings`, `InsertPairs`,
`AppendEvaluatedPositionsAfter`, `GetUnperformedValue`, `MergeRoutes` and of
the pickup-delivery filter live in a translation unit that is not part of the
sources at hand; definitions for those are modelled from the spec, each marked
`Modelled from the spec:` in its doc comment.

Machine integers: the C++ code uses `int64`.  Costs and values are embedded as
`Int`; packed saving indices, whose hypotheses force them nonnegative and free
of overflow, are embedded as `Nat` (C++ signed division and modulo coincide
with `Nat` division and modulo on nonnegative operands).
-/

namespace Routing

/-! ## Filtered construction core (`IntVarFilteredDecisionBuilder`)

The committed solution `assignment_` maps every variable index to an optional
value: `none` embeds an element of the assignment container whose `Var()` is
null (the index is not in the current solution), `some v` an element holding
value `v`.  The staged delta `delta_` is the list of elements of the delta
assignment in insertion order, together with the `is_in_delta_` de-duplication
bitmap maintained by `SetValue` (routing.h lines 1944-1952). -/

/-- One element of the delta assignment: a variable index and its staged value. -/
structure DeltaElem where
  index : Nat
  value : Int
  deriving DecidableEq, Repr

/-- State of the generic filtered decision builder: committed solution, staged
delta, `is_in_delta_` bitmap (represented by the list of indices present in the
delta, as `delta_indices_` in the source), and the two diagnostic counters. -/
structure CoreState where
  assignment : Nat → Option Int
  delta : List DeltaElem
  numberOfDecisions : Nat
  numberOfRejects : Nat

/-- The `is_in_delta_` test: the staged delta already holds an element for
`index`.  In the source this is a bitmap kept in sync with the delta contents;
here it is read off the delta itself. -/
def isInDelta (delta : List DeltaElem) (index : Nat) : Bool :=
  delta.any (fun e => e.index = index)

/-- The assignment container `SetValue` path: update in place the value of the
(unique) element of the delta holding `index`. -/
def deltaUpdate (delta : List DeltaElem) (index : Nat) (value : Int) :
    List DeltaElem :=
  match delta with
  | [] => []
  | e :: rest =>
      if e.index = index then { e with value := value } :: rest
      else e :: deltaUpdate rest index value

/-- Embeds `IntVarFilteredDecisionBuilder::SetValue` (routing.h lines 1944-1952): if
`index` is not yet in the delta, `FastAdd` appends a fresh element with the
given value and records the index; otherwise the existing element is updated
in place.  The committed solution is untouched. -/
def SetValue (st : CoreState) (index : Nat) (value : Int) : CoreState :=
  if isInDelta st.delta index then
    { st with delta := deltaUpdate st.delta index value }
  else
    { st with delta := st.delta ++ [⟨index, value⟩] }

/-- Embeds `IntVarFilteredDecisionBuilder::Value` (routing.h lines 1955-1957): the
value of the element of the committed assignment container at `index`
(default value of an element whose variable is null embedded as `0`). -/
def Value (st : CoreState) (index : Nat) : Int :=
  (st.assignment index).getD 0

/-- Embeds `IntVarFilteredDecisionBuilder::Contains` (routing.h lines 1959-1961): the
element of the committed assignment container at `index` has a non-null
variable. -/
def Contains (st : CoreState) (index : Nat) : Bool :=
  (st.assignment index).isSome

/-- Apply a sequence of `SetValue` calls, given as (index, value) pairs, in
order. -/
def applySetValues (st : CoreState) (ops : List (Nat × Int)) : CoreState :=
  ops.foldl (fun s op => SetValue s op.1 op.2) st

/-- A feasibility rule (`LocalSearchFilter`): a predicate on the staged delta. -/
def Filter : Type := List DeltaElem → Bool

/-- Acceptance test `FilterAccept`: every registered filter accepts the delta, evaluated in
registration order with short-circuit on the first rejection. -/
def FilterAccept (filters : List Filter) (delta : List DeltaElem) : Bool :=
  filters.all (fun f => f delta)

/-- Merge the staged delta into the committed assignment: indices present in
the delta take their (last) staged value, all other indices keep their
committed value. -/
def mergeDelta (assignment : Nat → Option Int) (delta : List DeltaElem) :
    Nat → Option Int :=
  fun index =>
    match (delta.reverse.find? (fun e => e.index = index)) with
    | some e => some e.value
    | none => assignment index

/-- Modelled from the spec: `IntVarFilteredDecisionBuilder::Commit`
(routing.h lines 1936-1939, body not in the sources at hand).  Validates the
staged delta against every registered filter; on acceptance merges the delta
into the committed solution, on rejection leaves the committed solution
untouched and bumps the rejection counter; in either case the delta is
discarded and the decision counter is bumped.  Returns the acceptance flag
together with the new state. -/
def Commit (filters : List Filter) (st : CoreState) : Bool × CoreState :=
  if FilterAccept filters st.delta then
    (true,
      { assignment := mergeDelta st.assignment st.delta
        delta := []
        numberOfDecisions := st.numberOfDecisions + 1
        numberOfRejects := st.numberOfRejects })
  else
    (false,
      { st with
        delta := []
        numberOfDecisions := st.numberOfDecisions + 1
        numberOfRejects := st.numberOfRejects + 1 })

/-! ## Insertion position search (`CheapestInsertionFilteredDecisionBuilder`) -/

/-- Adjacent (predecessor, successor) break points along a route, the route
being given as the list of its nodes from start to end. -/
def adjacentPairs : List Nat → List (Nat × Nat)
  | p :: s :: rest => (p, s) :: adjacentPairs (s :: rest)
  | _ => []

/-- Modelled from the spec:
`CheapestInsertionFilteredDecisionBuilder::AppendEvaluatedPositionsAfter`
(routing.h lines 2062-2068, body not in the sources at hand).  For each legal
adjacent-pair break point (predecessor, successor) of the route, appends the
pair (cost, predecessor) where cost is
eval(predecessor, node, vehicle) + eval(node, successor, vehicle)
- eval(predecessor, successor, vehicle), `eval` being the external arc-cost
evaluator `evaluator_` (routing.h line 2073). -/
def AppendEvaluatedPositionsAfter (eval : Nat → Nat → Nat → Int)
    (nodeToInsert vehicle : Nat) : List Nat → List (Int × Nat)
  | p :: s :: rest =>
      (eval p nodeToInsert vehicle + eval nodeToInsert s vehicle
          - eval p s vehicle, p)
        :: AppendEvaluatedPositionsAfter eval nodeToInsert vehicle (s :: rest)
  | _ => []

/-- The maximum value of a 64-bit signed integer, `kint64max`. -/
def kint64max : Int := 2 ^ 63 - 1

/-- Modelled from the spec:
`CheapestInsertionFilteredDecisionBuilder::GetUnperformedValue` (routing.h
lines 2069-2071, body not in the sources at hand).  Returns the value of the
external penalty evaluator at the node when such an evaluator exists and the
node can legally be made inactive; returns `kint64max` when the penalty
callback is null or the node cannot be unperformed. -/
def GetUnperformedValue (penaltyEvaluator : Option (Nat → Int))
    (canBeUnperformed : Nat → Bool) (nodeToInsert : Nat) : Int :=
  match penaltyEvaluator with
  | some penalty =>
      if canBeUnperformed nodeToInsert then penalty nodeToInsert else kint64max
  | none => kint64max

/-! ## Global cheapest insertion queue
(`GlobalCheapestInsertionFilteredDecisionBuilder`)

The priority queue of candidate insertions is modelled by the list of its
entries; an entry records the position(s) it is anchored at (the node after
which the insertion it prices would take place) and its priced value. -/

/-- A pair-insertion entry of the global priority queue (`PairEntry`,
routing.h line 2096): pickup and delivery insertion positions, the pair they
belong to and the priced insertion value. -/
structure PairEntry where
  pickupInsertAfter : Nat
  deliveryInsertAfter : Nat
  pairIndex : Nat
  value : Int
  deriving DecidableEq, Repr

/-- A singleton-node entry of the global priority queue (`NodeEntry`,
routing.h line 2097): insertion position, node and priced insertion value. -/
structure NodeEntry where
  insertAfter : Nat
  node : Nat
  value : Int
  deriving DecidableEq, Repr

/-- A pair entry is anchored at one of the given positions. -/
def pairEntryTouches (e : PairEntry) (anchors : List Nat) : Bool :=
  anchors.contains e.pickupInsertAfter || anchors.contains e.deliveryInsertAfter

/-- A node entry is anchored at one of the given positions. -/
def nodeEntryTouches (e : NodeEntry) (anchors : List Nat) : Bool :=
  anchors.contains e.insertAfter

/-- Modelled from the spec: the incremental queue update performed by
`InsertPairs` after a committed pair insertion (routing.h lines 2101-2107 and
`UpdatePairPositions`, lines 2160-2168; bodies of the update helpers not in
the sources at hand).  With pickup inserted after `pickupInsertAfter` and
delivery after `deliveryInsertAfter`, the four newly adjacent positions are
`pickupInsertAfter`, the pickup, `deliveryInsertAfter` and the delivery:
every entry anchored at one of them is deleted and freshly recomputed
entries for those positions are added; all other entries are kept as they
are. -/
def updatePairQueue (recompute : Nat → List PairEntry) (queue : List PairEntry)
    (pickupInsertAfter pickup deliveryInsertAfter delivery : Nat) :
    List PairEntry :=
  queue.filter
      (fun e => !pairEntryTouches e
        [pickupInsertAfter, pickup, deliveryInsertAfter, delivery])
    ++ (recompute pickupInsertAfter ++ recompute pickup
        ++ recompute deliveryInsertAfter ++ recompute delivery)

/-- Modelled from the spec: the incremental queue update performed by
`InsertNodesOnRoutes` after a committed singleton insertion (routing.h lines
2109-2117).  With the node inserted after `insertAfter`, the two newly
adjacent positions are `insertAfter` and the node itself: every entry
anchored at one of them is deleted and freshly recomputed entries for those
positions are added; all other entries are kept as they are. -/
def updateNodeQueue (recompute : Nat → List NodeEntry) (queue : List NodeEntry)
    (insertAfter node : Nat) : List NodeEntry :=
  queue.filter (fun e => !nodeEntryTouches e [insertAfter, node])
    ++ (recompute insertAfter ++ recompute node)

/-! ## Savings construction (`SavingsFilteredDecisionBuilder`) -/

/-- A saving: a (value, packed index) pair (`Saving`, routing.h line 2400).
The value is an `int64` cost difference, embedded as `Int`; the packed index
is nonnegative and free of overflow in all uses covered here, so it is
embedded as `Nat`. -/
structure Saving where
  first : Int
  second : Nat
  deriving DecidableEq, Repr

/-- Embeds `SavingsFilteredDecisionBuilder::BuildSaving` (routing.h lines
2469-2473): packs a saving value, a vehicle type and the two nodes into a
(value, index) pair, the index being
vehicle_type * size_squared_ + before_node * Size() + after_node. -/
def BuildSaving (sizeSquared size : Nat) (saving : Int)
    (vehicleType beforeNode afterNode : Nat) : Saving :=
  ⟨saving, vehicleType * sizeSquared + beforeNode * size + afterNode⟩

/-- Embeds `SavingsFilteredDecisionBuilder::GetVehicleTypeFromSaving` (routing.h
lines 2418-2420). -/
def GetVehicleTypeFromSaving (sizeSquared : Nat) (saving : Saving) : Nat :=
  saving.second / sizeSquared

/-- Embeds `SavingsFilteredDecisionBuilder::GetBeforeNodeFromSaving` (routing.h
lines 2422-2424). -/
def GetBeforeNodeFromSaving (sizeSquared size : Nat) (saving : Saving) : Nat :=
  (saving.second % sizeSquared) / size

/-- Embeds `SavingsFilteredDecisionBuilder::GetAfterNodeFromSaving` (routing.h
lines 2426-2428). -/
def GetAfterNodeFromSaving (sizeSquared size : Nat) (saving : Saving) : Nat :=
  (saving.second % sizeSquared) % size

/-- Embeds `SavingsFilteredDecisionBuilder::GetSavingValue` (routing.h line 2430). -/
def GetSavingValue (saving : Saving) : Int :=
  saving.first

/-- Cost of the route serving a single node: start -> node -> end, priced by
the arc-cost evaluator of the vehicle type. -/
def routeCostAlone (eval : Nat → Nat → Int) (start endNode node : Nat) : Int :=
  eval start node + eval node endNode

/-- Cost of the merged route serving both nodes:
start -> node1 -> node2 -> end. -/
def routeCostMerged (eval : Nat → Nat → Int) (start endNode n1 n2 : Nat) :
    Int :=
  eval start n1 + eval n1 n2 + eval n2 endNode

/-- Modelled from the spec: the saving value computed by
`SavingsFilteredDecisionBuilder::ComputeSavings` (routing.h lines 2461-2467,
body not in the sources at hand) for two insertable nodes and a vehicle type
with the given start and end: the cost of the two routes visiting one node
each minus the cost of the one route visiting both nodes. -/
def savingValue (eval : Nat → Nat → Int) (start endNode n1 n2 : Nat) : Int :=
  routeCostAlone eval start endNode n1 + routeCostAlone eval start endNode n2
    - routeCostMerged eval start endNode n1 n2

/-- Insert a saving into a list sorted by non-increasing saving value,
keeping it sorted. -/
def insertSavingDesc (s : Saving) : List Saving → List Saving
  | [] => [s]
  | t :: rest =>
      if t.first ≤ s.first then s :: t :: rest
      else t :: insertSavingDesc s rest

/-- Modelled from the spec: the sorted savings container
(`savings_container_`, routing.h line 2448).  The computed savings are sorted
by non-increasing saving value, and `BuildRoutesFromSavings` consumes them in
that order. -/
def sortSavingsDesc : List Saving → List Saving
  | [] => []
  | s :: rest => insertSavingDesc s (sortSavingsDesc rest)

/-! ## Parallel savings route growth
(`ParallelSavingsFilteredDecisionBuilder`)

Routes are modelled as a map from vehicle to the sequence of nodes it
currently serves (start and end depots left implicit); an unused vehicle
serves the empty sequence. -/

/-- Of the two vehicles whose routes are merged, the one that keeps the
merged route: whichever has the lower fixed cost (the first one on ties). -/
def mergeKeepVehicle (fixedCost : Nat → Int) (firstVehicle secondVehicle : Nat) :
    Nat :=
  if fixedCost secondVehicle < fixedCost firstVehicle then secondVehicle
  else firstVehicle

/-- Of the two vehicles whose routes are merged, the one that is freed for
reuse. -/
def mergeFreedVehicle (fixedCost : Nat → Int) (firstVehicle secondVehicle : Nat) :
    Nat :=
  if fixedCost secondVehicle < fixedCost firstVehicle then firstVehicle
  else secondVehicle

/-- Modelled from the spec:
`ParallelSavingsFilteredDecisionBuilder::MergeRoutes` (routing.h lines
2538-2543, body not in the sources at hand).  The route of `firstVehicle`
(ending at the before node) and the route of `secondVehicle` (starting at the
after node) are concatenated by adding the arc before_node --> after_node;
the merged route goes to whichever of the two vehicles has the lower fixed
cost, and the route of the other vehicle is cleared, freeing it for reuse. -/
def MergeRoutes (routes : Nat → List Nat) (fixedCost : Nat → Int)
    (firstVehicle secondVehicle : Nat) : Nat → List Nat :=
  fun v =>
    if v = mergeFreedVehicle fixedCost firstVehicle secondVehicle then []
    else if v = mergeKeepVehicle fixedCost firstVehicle secondVehicle then
      routes firstVehicle ++ routes secondVehicle
    else routes v

/-! ## Pickup-delivery precedence (`MakePickupDeliveryFilter`)

A solution is viewed through its paths: the list, per vehicle, of the nodes
on its route in visit order.  The rank of a node on a path is its index on
that list. -/

/-- Modelled from the spec: acceptance criterion of the pickup-delivery
feasibility filter (`MakePickupDeliveryFilter`, routing.h lines 2664-2666,
body not in the sources at hand).  For every pickup-delivery pair, if either
node is on some path then both must be on the same path, with the pickup
ranked strictly before the delivery. -/
def pickupDeliveryAccept (paths : List (List Nat))
    (pairs : List (Nat × Nat)) : Bool :=
  pairs.all fun pr =>
    match paths.find? (fun path => path.contains pr.1 || path.contains pr.2) with
    | none => true
    | some path =>
        path.contains pr.1 && path.contains pr.2
          && decide (path.indexOf pr.1 < path.indexOf pr.2)

/-! ## Helper notions for the core theorems -/

/-- The value staged for `index` in the delta: the value of the first delta
element holding that index, if any. -/
def deltaLookup (delta : List DeltaElem) (index : Nat) : Option Int :=
  (delta.find? (fun e => e.index = index)).map (fun e => e.value)

/-- Number of delta elements holding `index`. -/
def countIndex (delta : List DeltaElem) (index : Nat) : Nat :=
  delta.countP (fun e => e.index = index)

theorem SetValue_assignment (st : CoreState) (i : Nat) (v : Int) :
    (SetValue st i v).assignment = st.assignment := by
  unfold SetValue
  split <;> rfl

theorem applySetValues_assignment (st : CoreState) (ops : List (Nat × Int)) :
    (applySetValues st ops).assignment = st.assignment := by
  induction ops generalizing st with
  | nil => rfl
  | cons op rest ih =>
      show (applySetValues (SetValue st op.1 op.2) rest).assignment
          = st.assignment
      rw [ih, SetValue_assignment]

theorem countIndex_deltaUpdate (d : List DeltaElem) (i : Nat) (v : Int)
    (j : Nat) : countIndex (deltaUpdate d i v) j = countIndex d j := by
  induction d with
  | nil => rfl
  | cons e rest ih =>
      unfold deltaUpdate
      by_cases h : e.index = i
      · simp [h, countIndex, List.countP_cons]
      · simp only [if_neg h, countIndex, List.countP_cons] at ih ⊢
        omega

theorem isInDelta_false_count (d : List DeltaElem) (i : Nat)
    (h : isInDelta d i = false) : countIndex d i = 0 := by
  rw [countIndex, List.countP_eq_zero]
  intro e he
  simp only [isInDelta, List.any_eq_false] at h
  simpa using h e he

theorem deltaLookup_deltaUpdate (d : List DeltaElem) (i : Nat) (v : Int)
    (h : isInDelta d i = true) : deltaLookup (deltaUpdate d i v) i = some v := by
  induction d with
  | nil => simp [isInDelta] at h
  | cons e rest ih =>
      unfold deltaUpdate
      by_cases he : e.index = i
      · rw [if_pos he]
        rw [deltaLookup, List.find?_cons_of_pos _ (by simp [he])]
        rfl
      · have hrest : isInDelta rest i = true := by
          simp only [isInDelta, List.any_cons, he] at h ⊢
          simpa using h
        rw [if_neg he]
        rw [deltaLookup, List.find?_cons_of_neg _ (by simp [he])]
        exact ih hrest

theorem deltaLookup_SetValue (st : CoreState) (i : Nat) (v : Int) :
    deltaLookup (SetValue st i v).delta i = some v := by
  unfold SetValue
  by_cases hin : isInDelta st.delta i
  · simpa [hin] using deltaLookup_deltaUpdate st.delta i v hin
  · have hnone : st.delta.find? (fun e => decide (e.index = i)) = none := by
      rw [List.find?_eq_none]
      intro e he
      simp only [isInDelta, Bool.not_eq_true, List.any_eq_false] at hin
      simpa using hin e he
    simp [hin, deltaLookup, List.find?_append, hnone]

theorem countIndex_SetValue (st : CoreState) (i : Nat) (v : Int)
    (h : countIndex st.delta i ≤ 1) :
    countIndex (SetValue st i v).delta i = 1 := by
  unfold SetValue
  by_cases hin : isInDelta st.delta i
  · rw [if_pos hin]
    rw [show (({ st with delta := deltaUpdate st.delta i v } :
        CoreState)).delta = deltaUpdate st.delta i v from rfl]
    rw [countIndex_deltaUpdate]
    have hpos : 0 < countIndex st.delta i := by
      rw [countIndex, List.countP_pos_iff]
      obtain ⟨e, he, hpe⟩ := List.any_eq_true.mp hin
      exact ⟨e, he, hpe⟩
    omega
  · rw [if_neg hin]
    have h0 : countIndex st.delta i = 0 :=
      isInDelta_false_count st.delta i (by simpa using hin)
    show countIndex (st.delta ++ [⟨i, v⟩]) i = 1
    rw [countIndex, List.countP_append]
    rw [countIndex] at h0
    rw [h0]
    simp [List.countP_cons]

theorem SetValue_invariant (st : CoreState) (i : Nat) (v : Int)
    (h : ∀ j, countIndex st.delta j ≤ 1) :
    ∀ j, countIndex (SetValue st i v).delta j ≤ 1 := by
  intro j
  by_cases hij : i = j
  · subst hij
    rw [countIndex_SetValue st i v (h i)]
  · unfold SetValue
    by_cases hin : isInDelta st.delta i
    · rw [if_pos hin]
      rw [show (({ st with delta := deltaUpdate st.delta i v } :
          CoreState)).delta = deltaUpdate st.delta i v from rfl]
      rw [countIndex_deltaUpdate]
      exact h j
    · rw [if_neg hin]
      simp only [countIndex, List.countP_append] at h ⊢
      have : List.countP (fun e => decide (e.index = j)) [(⟨i, v⟩ : DeltaElem)]
          = 0 := by
        simp [List.countP_cons, hij]
      rw [this]
      simpa using h j

/-- Claim C1: Commit atomicity.  If `Commit` returns failure, the candidate
solution after the call is identical to before the call; whether it succeeds
or fails, the staged delta is discarded by the call. -/
theorem commit_atomicity (filters : List Filter) (st : CoreState) :
    ((Commit filters st).1 = false →
      (Commit filters st).2.assignment = st.assignment) ∧
    (Commit filters st).2.delta = [] := by
  unfold Commit
  by_cases h : FilterAccept filters st.delta
  · simp [h]
  · simp [h]

/-- A filter chain whose single rule rejects every delta. -/
def commitCexFilters : List Filter := [fun _ => false]

/-- A core state with one staged delta element. -/
def commitCexState : CoreState :=
  { assignment := fun _ => none
    delta := [⟨0, 1⟩]
    numberOfDecisions := 0
    numberOfRejects := 0 }

/-- Witness for C1: on a concrete state whose delta is rejected, the commit
fails, the committed solution is unchanged and the delta is emptied. -/
theorem commit_atomicity_witness :
    (Commit commitCexFilters commitCexState).1 = false ∧
    (Commit commitCexFilters commitCexState).2.assignment
        = commitCexState.assignment ∧
    (Commit commitCexFilters commitCexState).2.delta = [] :=
  ⟨rfl, (commit_atomicity commitCexFilters commitCexState).1 rfl,
    (commit_atomicity commitCexFilters commitCexState).2⟩

/-- Claim C6: reads never see the pending delta.  After any sequence of
`SetValue` calls, `Value` and `Contains` still report the last-committed
candidate solution. -/
theorem reads_ignore_delta (st : CoreState) (ops : List (Nat × Int))
    (index : Nat) :
    Value (applySetValues st ops) index = Value st index ∧
    Contains (applySetValues st ops) index = Contains st index := by
  unfold Value Contains
  rw [applySetValues_assignment]
  exact ⟨rfl, rfl⟩

/-- Claim C7: last writer wins within one proposal.  Starting from a state
whose delta has at most one element per index (as after any commit, which
empties the delta), a sequence of `SetValue` calls on one index leaves the
delta mapping that index to the last written value, through exactly one
element. -/
theorem last_writer_wins (st : CoreState)
    (hinv : ∀ j, countIndex st.delta j ≤ 1) (index : Nat) (vs : List Int)
    (hne : vs ≠ []) :
    deltaLookup (applySetValues st (vs.map (fun v => (index, v)))).delta index
        = some (vs.getLast hne) ∧
    countIndex (applySetValues st (vs.map (fun v => (index, v)))).delta index
        = 1 := by
  induction vs generalizing st with
  | nil => exact absurd rfl hne
  | cons v rest ih =>
      cases rest with
      | nil =>
          constructor
          · show deltaLookup (SetValue st index v).delta index = some v
            exact deltaLookup_SetValue st index v
          · show countIndex (SetValue st index v).delta index = 1
            exact countIndex_SetValue st index v (hinv index)
      | cons w ws =>
          have hne' : w :: ws ≠ [] := by simp
          have h := ih (SetValue st index v) (SetValue_invariant st index v hinv)
            hne'
          rw [List.getLast_cons hne']
          exact h

/-- A core state with an empty delta, as right after a commit. -/
def lwwState : CoreState :=
  { assignment := fun _ => none
    delta := []
    numberOfDecisions := 0
    numberOfRejects := 0 }

/-- Witness for C7: writing 1 then 2 to index 0 leaves the delta mapping
index 0 to 2 through exactly one element. -/
theorem last_writer_wins_witness :
    deltaLookup (applySetValues lwwState
        (([1, 2] : List Int).map (fun v => ((0 : Nat), v)))).delta 0
        = some (([1, 2] : List Int).getLast (by simp)) ∧
    countIndex (applySetValues lwwState
        (([1, 2] : List Int).map (fun v => ((0 : Nat), v)))).delta 0 = 1 :=
  last_writer_wins lwwState (fun j => by simp [lwwState, countIndex]) 0 [1, 2]
    (by simp)

/-! ## Saving encoding and savings order -/

/-- Claim C10: saving encoding round-trip.  With
size_squared_ = Size() * Size() and in-range nodes, the four accessors invert
`BuildSaving`.  (The nonnegativity and no-overflow assumptions of the claim
are captured by the `Nat` embedding of the packed index.) -/
theorem build_saving_roundtrip (size : Nat) (v : Int) (t b a : Nat)
    (hb : b < size) (ha : a < size) :
    GetSavingValue (BuildSaving (size * size) size v t b a) = v ∧
    GetVehicleTypeFromSaving (size * size)
        (BuildSaving (size * size) size v t b a) = t ∧
    GetBeforeNodeFromSaving (size * size) size
        (BuildSaving (size * size) size v t b a) = b ∧
    GetAfterNodeFromSaving (size * size) size
        (BuildSaving (size * size) size v t b a) = a := by
  have hsize : 0 < size := by omega
  have hlt : b * size + a < size * size := by
    calc b * size + a < b * size + size := by omega
      _ = (b + 1) * size := by ring
      _ ≤ size * size := Nat.mul_le_mul_right size hb
  have hsq : 0 < size * size := Nat.mul_pos hsize hsize
  have hsecond : (BuildSaving (size * size) size v t b a).second
      = size * size * t + (b * size + a) := by
    show t * (size * size) + b * size + a = size * size * t + (b * size + a)
    ring
  refine ⟨rfl, ?_, ?_, ?_⟩
  · show (BuildSaving (size * size) size v t b a).second / (size * size) = t
    rw [hsecond, Nat.mul_add_div hsq, Nat.div_eq_of_lt hlt]
    omega
  · show (BuildSaving (size * size) size v t b a).second % (size * size) / size
        = b
    rw [hsecond, Nat.mul_add_mod, Nat.mod_eq_of_lt hlt]
    rw [show b * size + a = size * b + a by ring]
    rw [Nat.mul_add_div hsize, Nat.div_eq_of_lt ha]
    omega
  · show (BuildSaving (size * size) size v t b a).second % (size * size) % size
        = a
    rw [hsecond, Nat.mul_add_mod, Nat.mod_eq_of_lt hlt]
    rw [show b * size + a = size * b + a by ring]
    rw [Nat.mul_add_mod, Nat.mod_eq_of_lt ha]

/-- Witness for C10: with Size() = 3, value -5, vehicle type 2, before node 1
and after node 2, the accessors recover all four components. -/
theorem build_saving_roundtrip_witness :
    GetSavingValue (BuildSaving (3 * 3) 3 (-5) 2 1 2) = -5 ∧
    GetVehicleTypeFromSaving (3 * 3) (BuildSaving (3 * 3) 3 (-5) 2 1 2) = 2 ∧
    GetBeforeNodeFromSaving (3 * 3) 3 (BuildSaving (3 * 3) 3 (-5) 2 1 2) = 1 ∧
    GetAfterNodeFromSaving (3 * 3) 3 (BuildSaving (3 * 3) 3 (-5) 2 1 2) = 2 :=
  build_saving_roundtrip 3 (-5) 2 1 2 (by decide) (by decide)

/-- Every element of `insertSavingDesc s l` is `s` or an element of `l`. -/
theorem mem_insertSavingDesc (x s : Saving) (l : List Saving) :
    x ∈ insertSavingDesc s l → x = s ∨ x ∈ l := by
  induction l with
  | nil =>
      intro h
      exact Or.inl (by simpa [insertSavingDesc] using h)
  | cons t rest ih =>
      intro h
      unfold insertSavingDesc at h
      by_cases hc : t.first ≤ s.first
      · rw [if_pos hc] at h
        rcases List.mem_cons.mp h with h | h
        · exact Or.inl h
        · exact Or.inr h
      · rw [if_neg hc] at h
        rcases List.mem_cons.mp h with h | h
        · rw [h]
          exact Or.inr (List.mem_cons_self t rest)
        · rcases ih h with h | h
          · exact Or.inl h
          · exact Or.inr (List.mem_cons_of_mem t h)

theorem sorted_insertSavingDesc (s : Saving) (l : List Saving)
    (hl : List.Sorted (fun x y : Saving => y.first ≤ x.first) l) :
    List.Sorted (fun x y : Saving => y.first ≤ x.first)
      (insertSavingDesc s l) := by
  induction l with
  | nil => simp [insertSavingDesc]
  | cons t rest ih =>
      rw [List.sorted_cons] at hl
      obtain ⟨ht, hrest⟩ := hl
      unfold insertSavingDesc
      by_cases hc : t.first ≤ s.first
      · rw [if_pos hc, List.sorted_cons]
        refine ⟨?_, List.sorted_cons.mpr ⟨ht, hrest⟩⟩
        intro b hb
        rcases List.mem_cons.mp hb with hb | hb
        · exact hb ▸ hc
        · exact le_trans (ht b hb) hc
      · rw [if_neg hc, List.sorted_cons]
        refine ⟨?_, ih hrest⟩
        intro b hb
        rcases mem_insertSavingDesc b s rest hb with hb | hb
        · exact hb ▸ le_of_lt (lt_of_not_le hc)
        · exact ht b hb

theorem sorted_sortSavingsDesc (l : List Saving) :
    List.Sorted (fun x y : Saving => y.first ≤ x.first) (sortSavingsDesc l) := by
  induction l with
  | nil => simp [sortSavingsDesc]
  | cons s rest ih => exact sorted_insertSavingDesc s (sortSavingsDesc rest) ih

/-- An arc-cost evaluator that is zero except on the arc 1 --> 2. -/
def cexEval : Nat → Nat → Int :=
  fun a b => if a = 1 ∧ b = 2 then 1 else 0

/-- Counterexample for C3: an evaluator returning only non-negative costs for
which the saving of merging the single-node routes of nodes 1 and 2 is
negative. -/
theorem savings_nonneg_counterexample :
    (∀ a b : Nat, 0 ≤ cexEval a b) ∧ savingValue cexEval 0 0 1 2 < 0 := by
  constructor
  · intro a b
    unfold cexEval
    split <;> decide
  · decide

/-- Claim C3 (amended): savings monotonicity.  The saving value equals
cost(node1 alone) + cost(node2 alone) - cost(node1,node2 merged); it is never
negative when the vehicle type starts and ends at a common depot and the
arc-cost evaluator satisfies the triangle inequality; and the savings-based
builders consume savings in non-increasing order of saving value. -/
theorem savings_monotonicity (eval : Nat → Nat → Int) (depot n1 n2 : Nat)
    (htri : ∀ x y z, eval x z ≤ eval x y + eval y z)
    (savings : List Saving) :
    savingValue eval depot depot n1 n2
        = routeCostAlone eval depot depot n1
          + routeCostAlone eval depot depot n2
          - routeCostMerged eval depot depot n1 n2 ∧
    0 ≤ savingValue eval depot depot n1 n2 ∧
    List.Sorted (fun x y : Saving => GetSavingValue y ≤ GetSavingValue x)
      (sortSavingsDesc savings) := by
  refine ⟨rfl, ?_, sorted_sortSavingsDesc savings⟩
  have h := htri n1 depot n2
  unfold savingValue routeCostAlone routeCostMerged
  linarith

/-- An arc-cost evaluator that is constantly zero; it satisfies the triangle
inequality. -/
def zeroEval : Nat → Nat → Int := fun _ _ => 0

/-- Witness for C3: the amended claim at a concrete evaluator, depot, node
pair and savings list. -/
theorem savings_monotonicity_witness :
    savingValue zeroEval 0 0 1 2
        = routeCostAlone zeroEval 0 0 1 + routeCostAlone zeroEval 0 0 2
          - routeCostMerged zeroEval 0 0 1 2 ∧
    0 ≤ savingValue zeroEval 0 0 1 2 ∧
    List.Sorted (fun x y : Saving => GetSavingValue y ≤ GetSavingValue x)
      (sortSavingsDesc [⟨1, 0⟩, ⟨5, 0⟩, ⟨3, 0⟩]) :=
  savings_monotonicity zeroEval 0 1 2 (fun x y z => by simp [zeroEval])
    [⟨1, 0⟩, ⟨5, 0⟩, ⟨3, 0⟩]

/-! ## Insertion pricing and the unperformed sentinel -/

/-- Claim C5: insertion pricing formula.  Every (cost, predecessor) pair
produced by `AppendEvaluatedPositionsAfter` prices an adjacent-pair break
point (predecessor, successor) of the route at
evaluator(predecessor, node, vehicle) + evaluator(node, successor, vehicle)
- evaluator(predecessor, successor, vehicle). -/
theorem insertion_pricing (eval : Nat → Nat → Nat → Int) (node vehicle : Nat)
    (route : List Nat) :
    ∀ c p, (c, p) ∈ AppendEvaluatedPositionsAfter eval node vehicle route →
      ∃ s, (p, s) ∈ adjacentPairs route ∧
        c = eval p node vehicle + eval node s vehicle - eval p s vehicle := by
  induction route with
  | nil =>
      intro c p hmem
      simp [AppendEvaluatedPositionsAfter] at hmem
  | cons hd tail ih =>
      cases tail with
      | nil =>
          intro c p hmem
          simp [AppendEvaluatedPositionsAfter] at hmem
      | cons s2 rest =>
          intro c p hmem
          rcases List.mem_cons.mp hmem with h | h
          · obtain ⟨hc, hp⟩ := Prod.mk.injEq .. ▸ h
            refine ⟨s2, ?_, ?_⟩
            · rw [hp]
              exact List.mem_cons_self _ _
            · rw [hc, hp]
          · obtain ⟨s, hs, hcost⟩ := ih c p h
            exact ⟨s, List.mem_cons_of_mem _ hs, hcost⟩

/-- An arc-cost evaluator used by the C5 witness. -/
def pricingEval : Nat → Nat → Nat → Int :=
  fun a b v => (a : Int) + 2 * b + v

/-- Witness for C5: on the route 0, 1, 2, inserting node 5 for vehicle 0, the
queue holds the pair (15, 0), and 15 is the formula price of the break point
after node 0. -/
theorem insertion_pricing_witness :
    ∃ s, ((0 : Nat), s) ∈ adjacentPairs [0, 1, 2] ∧
      (15 : Int) = pricingEval 0 5 0 + pricingEval 5 s 0 - pricingEval 0 s 0 :=
  insertion_pricing pricingEval 5 0 [0, 1, 2] 15 0 (by decide)

/-- Claim C8: unperformed-cost sentinel.  `GetUnperformedValue` returns the
penalty evaluator value when the evaluator exists and the node can be made
inactive, and `kint64max` when the evaluator is absent or the node cannot be
unperformed. -/
theorem unperformed_value_sentinel (penaltyEvaluator : Option (Nat → Int))
    (canBeUnperformed : Nat → Bool) (node : Nat) :
    (∀ p, penaltyEvaluator = some p → canBeUnperformed node = true →
      GetUnperformedValue penaltyEvaluator canBeUnperformed node = p node) ∧
    (penaltyEvaluator = none ∨ canBeUnperformed node = false →
      GetUnperformedValue penaltyEvaluator canBeUnperformed node
          = kint64max) := by
  constructor
  · intro p hp hcan
    subst hp
    simp [GetUnperformedValue, hcan]
  · intro h
    rcases h with h | h
    · subst h
      rfl
    · cases penaltyEvaluator with
      | none => rfl
      | some p => simp [GetUnperformedValue, h]

/-- A constant penalty evaluator returning 3. -/
def penaltyFn : Nat → Int := fun _ => 3

/-- Witness for C8: with a penalty evaluator present and the node inactivable
the penalty is returned; with the evaluator absent the sentinel is
returned. -/
theorem unperformed_value_sentinel_witness :
    GetUnperformedValue (some penaltyFn) (fun _ => true) 7 = penaltyFn 7 ∧
    GetUnperformedValue none (fun _ => true) 7 = kint64max :=
  ⟨(unperformed_value_sentinel (some penaltyFn) (fun _ => true) 7).1 penaltyFn
      rfl rfl,
    (unperformed_value_sentinel none (fun _ => true) 7).2 (Or.inl rfl)⟩

/-! ## Localized re-pricing of the global insertion queue -/

theorem pairEntryTouches_of_anchor (e : PairEntry) (anchors : List Nat)
    (a : Nat) (ha : a ∈ anchors)
    (h : e.pickupInsertAfter = a ∨ e.deliveryInsertAfter = a) :
    pairEntryTouches e anchors = true := by
  have hc : anchors.contains a = true := List.elem_eq_true_of_mem ha
  unfold pairEntryTouches
  rcases h with h | h <;> rw [h, hc] <;> simp

theorem nodeEntryTouches_of_anchor (e : NodeEntry) (anchors : List Nat)
    (a : Nat) (ha : a ∈ anchors) (h : e.insertAfter = a) :
    nodeEntryTouches e anchors = true := by
  unfold nodeEntryTouches
  rw [h]
  exact List.elem_eq_true_of_mem ha

/-- Claim C2: localized re-pricing.  After a committed insertion, an entry of
the global priority queue that is not anchored at one of the newly adjacent
positions (four in the pair case, two in the singleton case) survives the
incremental update unchanged, and every entry of the updated queue that is
not anchored there was already in the queue before (so only entries anchored
at those positions are invalidated and recomputed, provided recomputed
entries are anchored at the position they are recomputed for). -/
theorem localized_repricing
    (recomputePair : Nat → List PairEntry) (pairQueue : List PairEntry)
    (pickupInsertAfter pickup deliveryInsertAfter delivery : Nat)
    (hrecPair : ∀ a e, e ∈ recomputePair a →
      e.pickupInsertAfter = a ∨ e.deliveryInsertAfter = a)
    (recomputeNode : Nat → List NodeEntry) (nodeQueue : List NodeEntry)
    (insertAfter node : Nat)
    (hrecNode : ∀ a e, e ∈ recomputeNode a → e.insertAfter = a) :
    (∀ e ∈ pairQueue,
      pairEntryTouches e
          [pickupInsertAfter, pickup, deliveryInsertAfter, delivery] = false →
      e ∈ updatePairQueue recomputePair pairQueue pickupInsertAfter pickup
            deliveryInsertAfter delivery) ∧
    (∀ e ∈ updatePairQueue recomputePair pairQueue pickupInsertAfter pickup
          deliveryInsertAfter delivery,
      pairEntryTouches e
          [pickupInsertAfter, pickup, deliveryInsertAfter, delivery] = false →
      e ∈ pairQueue) ∧
    (∀ e ∈ nodeQueue, nodeEntryTouches e [insertAfter, node] = false →
      e ∈ updateNodeQueue recomputeNode nodeQueue insertAfter node) ∧
    (∀ e ∈ updateNodeQueue recomputeNode nodeQueue insertAfter node,
      nodeEntryTouches e [insertAfter, node] = false → e ∈ nodeQueue) := by
  refine ⟨?_, ?_, ?_, ?_⟩
  · intro e he htouch
    exact List.mem_append_left _
      (List.mem_filter.mpr ⟨he, by simp [htouch]⟩)
  · intro e he htouch
    rcases List.mem_append.mp he with h | h
    · exact (List.mem_filter.mp h).1
    · exfalso
      rcases List.mem_append.mp h with h | h
      · rcases List.mem_append.mp h with h | h
        · rcases List.mem_append.mp h with h | h
          · have := pairEntryTouches_of_anchor e
              [pickupInsertAfter, pickup, deliveryInsertAfter, delivery]
              pickupInsertAfter (by simp) (hrecPair _ e h)
            rw [this] at htouch
            simp at htouch
          · have := pairEntryTouches_of_anchor e
              [pickupInsertAfter, pickup, deliveryInsertAfter, delivery]
              pickup (by simp) (hrecPair _ e h)
            rw [this] at htouch
            simp at htouch
        · have := pairEntryTouches_of_anchor e
            [pickupInsertAfter, pickup, deliveryInsertAfter, delivery]
            deliveryInsertAfter (by simp) (hrecPair _ e h)
          rw [this] at htouch
          simp at htouch
      · have := pairEntryTouches_of_anchor e
          [pickupInsertAfter, pickup, deliveryInsertAfter, delivery]
          delivery (by simp) (hrecPair _ e h)
        rw [this] at htouch
        simp at htouch
  · intro e he htouch
    exact List.mem_append_left _
      (List.mem_filter.mpr ⟨he, by simp [htouch]⟩)
  · intro e he htouch
    rcases List.mem_append.mp he with h | h
    · exact (List.mem_filter.mp h).1
    · exfalso
      rcases List.mem_append.mp h with h | h
      · have := nodeEntryTouches_of_anchor e [insertAfter, node]
          insertAfter (by simp) (hrecNode _ e h)
        rw [this] at htouch
        simp at htouch
      · have := nodeEntryTouches_of_anchor e [insertAfter, node]
          node (by simp) (hrecNode _ e h)
        rw [this] at htouch
        simp at htouch

/-- Recomputation function for pair entries used by the C2 witness: one fresh
entry anchored at the given position. -/
def recPairFn : Nat → List PairEntry := fun a => [⟨a, a, 0, 5⟩]

/-- Recomputation function for node entries used by the C2 witness. -/
def recNodeFn : Nat → List NodeEntry := fun a => [⟨a, 9, 5⟩]

/-- Witness for C2: a pair entry anchored away from the four updated
positions and a node entry anchored away from the two updated positions both
survive the incremental update. -/
theorem localized_repricing_witness :
    (⟨8, 9, 1, 7⟩ : PairEntry) ∈
        updatePairQueue recPairFn [⟨8, 9, 1, 7⟩] 1 2 3 4 ∧
    (⟨7, 8, 3⟩ : NodeEntry) ∈ updateNodeQueue recNodeFn [⟨7, 8, 3⟩] 1 2 := by
  have h := localized_repricing recPairFn [⟨8, 9, 1, 7⟩] 1 2 3 4
    (by
      intro a e he
      simp only [recPairFn, List.mem_singleton] at he
      subst he
      exact Or.inl rfl)
    recNodeFn [⟨7, 8, 3⟩] 1 2
    (by
      intro a e he
      simp only [recNodeFn, List.mem_singleton] at he
      subst he
      rfl)
  exact ⟨h.1 ⟨8, 9, 1, 7⟩ (by decide) (by decide),
    h.2.2.1 ⟨7, 8, 3⟩ (by decide) (by decide)⟩

/-! ## Pair precedence -/

/-- Claim C4: pair precedence.  In every solution accepted by the
pickup-delivery feasibility filter (hence in every solution produced by a
successful build, whose every commit passed the filters), each inserted
pickup-delivery pair has both nodes on the same path, with the delivery
ranked strictly after the pickup. -/
theorem pair_precedence (paths : List (List Nat)) (pairs : List (Nat × Nat))
    (hacc : pickupDeliveryAccept paths pairs = true) (pu de : Nat)
    (hmem : (pu, de) ∈ pairs) (hin : ∃ p ∈ paths, pu ∈ p ∨ de ∈ p) :
    ∃ p ∈ paths, pu ∈ p ∧ de ∈ p ∧ p.indexOf pu < p.indexOf de := by
  have hall := List.all_eq_true.mp hacc (pu, de) hmem
  obtain ⟨p0, hp0mem, hp0⟩ := hin
  have hfind : (paths.find?
      (fun path => path.contains pu || path.contains de)).isSome := by
    rw [List.find?_isSome]
    refine ⟨p0, hp0mem, ?_⟩
    rcases hp0 with h | h
    · have hc : p0.contains pu = true := List.elem_eq_true_of_mem h
      rw [hc]
      rfl
    · have hc : p0.contains de = true := List.elem_eq_true_of_mem h
      rw [hc]
      simp
  obtain ⟨path, hpath⟩ := Option.isSome_iff_exists.mp hfind
  rw [show ((pu, de).1) = pu from rfl, show ((pu, de).2) = de from rfl]
    at hall
  rw [hpath] at hall
  simp only [Bool.and_eq_true, decide_eq_true_eq] at hall
  obtain ⟨⟨hcpu, hcde⟩, hlt⟩ := hall
  refine ⟨path, List.mem_of_find?_eq_some hpath, ?_, ?_, hlt⟩
  · simpa using hcpu
  · simpa using hcde

/-- Paths of the C4 witness: one vehicle serves 10 then 20, another serves
30. -/
def witnessPaths : List (List Nat) := [[10, 20], [30]]

/-- Witness for C4: with the pair (10, 20) inserted on the first path, the
filter accepts, and pickup 10 is ranked strictly before delivery 20 on that
path. -/
theorem pair_precedence_witness :
    ∃ p ∈ witnessPaths, 10 ∈ p ∧ 20 ∈ p ∧ p.indexOf 10 < p.indexOf 20 :=
  pair_precedence witnessPaths [(10, 20)] (by decide) 10 20 (by decide)
    ⟨[10, 20], by decide, Or.inl (by decide)⟩

/-! ## Parallel savings merging -/

theorem adjacentPairs_append (l1 l2 : List Nat) (b a : Nat)
    (hl1 : l1.getLast? = some b) (hl2 : l2.head? = some a) :
    (b, a) ∈ adjacentPairs (l1 ++ l2) := by
  induction l1 with
  | nil => simp at hl1
  | cons x tail ih =>
      cases tail with
      | nil =>
          have hb : x = b := by simpa using hl1
          cases l2 with
          | nil => simp at hl2
          | cons y rest =>
              have ha : y = a := by simpa using hl2
              show (b, a) ∈ (x, y) :: adjacentPairs (y :: rest)
              rw [hb, ha]
              exact List.mem_cons_self _ _
      | cons z ztail =>
          have hl1' : (z :: ztail).getLast? = some b := by
            rw [← List.getLast?_cons_cons]
            exact hl1
          show (b, a) ∈ (x, z) :: adjacentPairs ((z :: ztail) ++ l2)
          exact List.mem_cons_of_mem _ (ih hl1')

theorem mergeKeep_ne_mergeFreed (fixedCost : Nat → Int) (f s : Nat)
    (hne : f ≠ s) :
    mergeKeepVehicle fixedCost f s ≠ mergeFreedVehicle fixedCost f s := by
  unfold mergeKeepVehicle mergeFreedVehicle
  split
  · exact fun h => hne h.symm
  · exact hne

theorem mergeKeep_eq_or (fixedCost : Nat → Int) (f s : Nat) :
    mergeKeepVehicle fixedCost f s = f ∨ mergeKeepVehicle fixedCost f s = s := by
  unfold mergeKeepVehicle
  split
  · exact Or.inr rfl
  · exact Or.inl rfl

theorem mergeFreed_eq_or (fixedCost : Nat → Int) (f s : Nat) :
    mergeFreedVehicle fixedCost f s = f
      ∨ mergeFreedVehicle fixedCost f s = s := by
  unfold mergeFreedVehicle
  split
  · exact Or.inl rfl
  · exact Or.inr rfl

/-- Claim C9: parallel savings merge target.  When the two nodes of a saving are
the last node of the route of one vehicle and the first node of the route of
a different vehicle, the two routes are merged into one by adding the arc
between those nodes, the merged route goes to whichever of the two vehicles
has the lower fixed cost, the route of the other vehicle becomes empty (the
vehicle is freed for reuse), and all other routes are untouched. -/
theorem parallel_savings_merge (routes : Nat → List Nat)
    (fixedCost : Nat → Int) (firstVehicle secondVehicle : Nat)
    (beforeNode afterNode : Nat) (hne : firstVehicle ≠ secondVehicle)
    (hbefore : (routes firstVehicle).getLast? = some beforeNode)
    (hafter : (routes secondVehicle).head? = some afterNode) :
    MergeRoutes routes fixedCost firstVehicle secondVehicle
        (mergeKeepVehicle fixedCost firstVehicle secondVehicle)
      = routes firstVehicle ++ routes secondVehicle ∧
    (beforeNode, afterNode) ∈ adjacentPairs
      (MergeRoutes routes fixedCost firstVehicle secondVehicle
        (mergeKeepVehicle fixedCost firstVehicle secondVehicle)) ∧
    fixedCost (mergeKeepVehicle fixedCost firstVehicle secondVehicle)
      ≤ fixedCost (mergeFreedVehicle fixedCost firstVehicle secondVehicle) ∧
    MergeRoutes routes fixedCost firstVehicle secondVehicle
        (mergeFreedVehicle fixedCost firstVehicle secondVehicle) = [] ∧
    (∀ v, v ≠ firstVehicle → v ≠ secondVehicle →
      MergeRoutes routes fixedCost firstVehicle secondVehicle v = routes v) := by
  have hkf := mergeKeep_ne_mergeFreed fixedCost firstVehicle secondVehicle hne
  have h1 : MergeRoutes routes fixedCost firstVehicle secondVehicle
      (mergeKeepVehicle fixedCost firstVehicle secondVehicle)
      = routes firstVehicle ++ routes secondVehicle := by
    unfold MergeRoutes
    rw [if_neg hkf, if_pos rfl]
  refine ⟨h1, ?_, ?_, ?_, ?_⟩
  · rw [h1]
    exact adjacentPairs_append _ _ _ _ hbefore hafter
  · unfold mergeKeepVehicle mergeFreedVehicle
    split
    · next h => exact le_of_lt h
    · next h => exact le_of_not_lt h
  · unfold MergeRoutes
    rw [if_pos rfl]
  · intro v hv1 hv2
    unfold MergeRoutes
    rw [if_neg, if_neg]
    · rcases mergeKeep_eq_or fixedCost firstVehicle secondVehicle with h | h <;>
        rw [h]
      · exact hv1
      · exact hv2
    · rcases mergeFreed_eq_or fixedCost firstVehicle secondVehicle with h | h <;>
        rw [h]
      · exact hv1
      · exact hv2

/-- Routes of the C9 witness: vehicle 0 serves 7 then 8, vehicle 1 serves
9. -/
def mergeRoutesFn : Nat → List Nat :=
  fun v => if v = 0 then [7, 8] else if v = 1 then [9] else []

/-- Fixed costs of the C9 witness: vehicle 0 costs 10, the others cost 5. -/
def mergeCostFn : Nat → Int := fun v => if v = 0 then 10 else 5

/-- Witness for C9: merging the routes of vehicles 0 and 1 (meeting at the
arc 8 --> 9) keeps the merged route on the cheaper vehicle 1, frees vehicle
0, and leaves vehicle 5 untouched. -/
theorem parallel_savings_merge_witness :
    MergeRoutes mergeRoutesFn mergeCostFn 0 1 (mergeKeepVehicle mergeCostFn 0 1)
      = mergeRoutesFn 0 ++ mergeRoutesFn 1 ∧
    (8, 9) ∈ adjacentPairs (MergeRoutes mergeRoutesFn mergeCostFn 0 1
      (mergeKeepVehicle mergeCostFn 0 1)) ∧
    mergeCostFn (mergeKeepVehicle mergeCostFn 0 1)
      ≤ mergeCostFn (mergeFreedVehicle mergeCostFn 0 1) ∧
    MergeRoutes mergeRoutesFn mergeCostFn 0 1
      (mergeFreedVehicle mergeCostFn 0 1) = [] ∧
    MergeRoutes mergeRoutesFn mergeCostFn 0 1 5 = mergeRoutesFn 5 := by
  have h := parallel_savings_merge mergeRoutesFn mergeCostFn 0 1 8 9
    (by decide) (by decide) (by decide)
  exact ⟨h.1, h.2.1, h.2.2.1, h.2.2.2.1, h.2.2.2.2 5 (by decide) (by decide)⟩

end Routing
